import Mathlib

/-!
Verification of the skimple fuzzy-match facade (src/lib.rs).

The facade aggregates integer scores produced by an external fuzzy scorer
(SkimMatcherV2.fuzzy_match, returning Option<i64>, treated as 0 when absent).
We embed the facade shallowly: the composite scoring step
  |item| matcher.fuzzy_match(item, needle).unwrap_or(0)
is an abstract function score : String → Int (the needle is fixed inside it),
and the two operations fuzzy_best and fuzzy_all are translated line by line.

Modelling notes, each tied to a line of the source:
  * Rust's iterator max_by returns the LAST of equally-maximum elements; the
    fold below (replace the accumulator when acc <= next) is exactly that
    reduction, comparing second components as the closure |(_, a), (_, b)| a.cmp(b) does.
  * haystack[index] in fuzzy_best is modelled as List.getD with default "";
    the index produced by max_by over the enumeration of results is always
    in bounds (results has the same length as haystack), so the default is
    never consulted.
  * Vec::sort_by with the comparator |(_, a), (_, b)| a.cmp(b) is a stable
    ascending sort on second components. List.insertionSort with the
    relation scoreLE (compare second components, ties keep the earlier
    element first) is the same stable ascending sort, and a stable sorted
    permutation of a list is unique, so the two agree elementwise.
-/

namespace Skimple

/-- The two error variants of the SkimpleError enum in src/lib.rs. -/
inductive SkimpleError where
  | NeedleNotFoundError
  | NeedleDisappearedError
deriving DecidableEq, Repr

/-- One step of Rust's iterator max_by reduction: keep the new element when
the accumulator compares less-or-equal, so the last maximum wins. -/
def maxStep {β : Type} (acc q : β × Int) : β × Int :=
  if acc.2 ≤ q.2 then q else acc

/-- Rust's iterator max_by over a list of pairs, comparing second components
(the closure in the source ignores the first components). Returns none on an
empty iterator, otherwise the LAST pair attaining the maximum second
component, exactly as documented for Iterator::max_by. -/
def maxByLast {β : Type} : List (β × Int) → Option (β × Int)
  | [] => none
  | p :: ps => some (ps.foldl maxStep p)

/-- SkimpleMatcher::fuzzy_best from src/lib.rs: score every candidate, fail
with NeedleNotFoundError when the scores sum to zero, otherwise index the
haystack at the position max_by resolves (NeedleDisappearedError when max_by
yields none). -/
def fuzzy_best (score : String → Int) (haystack : List String) :
    Except SkimpleError String :=
  let results := haystack.map score
  if results.sum = 0 then
    Except.error SkimpleError.NeedleNotFoundError
  else
    match (maxByLast results.enum).map Prod.fst with
    | none => Except.error SkimpleError.NeedleDisappearedError
    | some index => Except.ok (haystack.getD index "")

/-- The comparator used by matches.sort_by in fuzzy_all: order pairs by
their second (score) component. -/
def scoreLE (p q : String × Int) : Prop := p.2 ≤ q.2

instance : DecidableRel scoreLE := fun p q => Int.decLe p.2 q.2

instance : IsTotal (String × Int) scoreLE := ⟨fun p q => Int.le_total p.2 q.2⟩

instance : IsTrans (String × Int) scoreLE := ⟨fun _ _ _ h h' => le_trans h h'⟩

/-- SkimpleMatcher::fuzzy_all from src/lib.rs: score every candidate, fail
with NeedleNotFoundError when the scores sum to zero, otherwise keep the
(candidate, score) pairs with non-zero score, sort them stably by ascending
score, and return the candidates. -/
def fuzzy_all (score : String → Int) (haystack : List String) :
    Except SkimpleError (List String) :=
  let results := haystack.map score
  if results.sum = 0 then
    Except.error SkimpleError.NeedleNotFoundError
  else
    let ms := (haystack.zip results).filter (fun p => p.2 != 0)
    Except.ok ((ms.insertionSort scoreLE).map Prod.fst)

/-- The list of (candidate, score) pairs, in haystack order. Not part of the
source; used to state and prove properties of the two operations. -/
def pairsOf (score : String → Int) (haystack : List String) :
    List (String × Int) :=
  haystack.map (fun x => (x, score x))

end Skimple

namespace Skimple

/-! ### Properties of the max_by reduction -/

theorem maxStep_le_snd {β : Type} (a q : β × Int) : a.2 ≤ (maxStep a q).2 := by
  unfold maxStep
  split
  · assumption
  · exact le_refl _

theorem le_foldl_maxStep {β : Type} :
    ∀ (l : List (β × Int)) (a : β × Int), a.2 ≤ (l.foldl maxStep a).2
  | [], _ => le_refl _
  | q :: qs, a => le_trans (maxStep_le_snd a q) (le_foldl_maxStep qs (maxStep a q))

theorem foldl_maxStep_split {β : Type} :
    ∀ (l : List (β × Int)) (a : β × Int),
      ∃ l₁ l₂, a :: l = l₁ ++ (l.foldl maxStep a) :: l₂ ∧
        (∀ q ∈ l₁, q.2 ≤ (l.foldl maxStep a).2) ∧
        (∀ q ∈ l₂, q.2 < (l.foldl maxStep a).2) := by
  intro l
  induction l with
  | nil =>
    intro a
    exact ⟨[], [], rfl, by simp, by simp⟩
  | cons b bs ih =>
    intro a
    obtain ⟨m₁, m₂, heq, h₁, h₂⟩ := ih (maxStep a b)
    by_cases hab : a.2 ≤ b.2
    · have hstep : maxStep a b = b := if_pos hab
      refine ⟨a :: m₁, m₂, ?_, ?_, ?_⟩
      · simp only [List.foldl_cons]
        rw [List.cons_append, ← heq, hstep]
      · intro q hq
        rcases List.mem_cons.mp hq with h | h
        · subst h
          simp only [List.foldl_cons]
          exact le_trans (maxStep_le_snd q b) (by rw [hstep]; exact le_foldl_maxStep bs b)
        · simpa only [List.foldl_cons] using h₁ q h
      · simpa only [List.foldl_cons] using h₂
    · have hstep : maxStep a b = a := if_neg hab
      have hba : b.2 < a.2 := not_le.mp hab
      rw [hstep] at heq h₁ h₂
      cases m₁ with
      | nil =>
        simp only [List.nil_append, List.cons.injEq] at heq
        obtain ⟨hra, hm₂⟩ := heq
        refine ⟨[], b :: bs, ?_, by simp, ?_⟩
        · simp only [List.foldl_cons, hstep, List.nil_append, ← hra]
        · intro q hq
          simp only [List.foldl_cons, hstep]
          rcases List.mem_cons.mp hq with h | h
          · subst h
            rw [← hra]
            exact hba
          · exact h₂ q (hm₂ ▸ h)
      | cons c m₁' =>
        simp only [List.cons_append, List.cons.injEq] at heq
        obtain ⟨hca, hbs⟩ := heq
        have hav : a.2 ≤ (bs.foldl maxStep a).2 := le_foldl_maxStep bs a
        refine ⟨a :: b :: m₁', m₂, ?_, ?_, ?_⟩
        · simp only [List.foldl_cons, hstep, List.cons_append]
          rw [← hbs]
        · intro q hq
          simp only [List.foldl_cons, hstep]
          rcases List.mem_cons.mp hq with h | h
          · subst h; exact hav
          · rcases List.mem_cons.mp h with h' | h'
            · subst h'; exact le_trans (le_of_lt hba) hav
            · exact h₁ q (by simp [h'])
        · simpa only [List.foldl_cons, hstep] using h₂

theorem maxByLast_split {β : Type} {l : List (β × Int)} {p : β × Int}
    (h : maxByLast l = some p) :
    ∃ l₁ l₂, l = l₁ ++ p :: l₂ ∧ (∀ q ∈ l₁, q.2 ≤ p.2) ∧ (∀ q ∈ l₂, q.2 < p.2) := by
  cases l with
  | nil => simp [maxByLast] at h
  | cons a as =>
    simp only [maxByLast, Option.some.injEq] at h
    obtain ⟨l₁, l₂, heq, h₁, h₂⟩ := foldl_maxStep_split as a
    rw [h] at heq h₁ h₂
    exact ⟨l₁, l₂, heq, h₁, h₂⟩

theorem maxByLast_mem {β : Type} {l : List (β × Int)} {p : β × Int}
    (h : maxByLast l = some p) : p ∈ l := by
  obtain ⟨l₁, l₂, heq, -, -⟩ := maxByLast_split h
  rw [heq]
  exact List.mem_append_right l₁ (List.mem_cons_self p l₂)

theorem maxByLast_le {β : Type} {l : List (β × Int)} {p : β × Int}
    (h : maxByLast l = some p) : ∀ q ∈ l, q.2 ≤ p.2 := by
  obtain ⟨l₁, l₂, heq, h₁, h₂⟩ := maxByLast_split h
  intro q hq
  rw [heq] at hq
  rcases List.mem_append.mp hq with h' | h'
  · exact h₁ q h'
  · rcases List.mem_cons.mp h' with h'' | h''
    · rw [h'']
    · exact le_of_lt (h₂ q h'')

theorem maxByLast_eq_none_iff {β : Type} {l : List (β × Int)} :
    maxByLast l = none ↔ l = [] := by
  cases l <;> simp [maxByLast]

theorem foldl_maxStep_map {β γ : Type} (f : β → γ) :
    ∀ (l : List (β × Int)) (a : β × Int),
      (l.map (fun p => (f p.1, p.2))).foldl maxStep (f a.1, a.2) =
        (f (l.foldl maxStep a).1, (l.foldl maxStep a).2) := by
  intro l
  induction l with
  | nil => intro a; rfl
  | cons b bs ih =>
    intro a
    simp only [List.map_cons, List.foldl_cons]
    have hstep : maxStep (f a.1, a.2) (f b.1, b.2) =
        (f (maxStep a b).1, (maxStep a b).2) := by
      unfold maxStep
      by_cases h : a.2 ≤ b.2 <;> simp [h]
    rw [hstep, ih (maxStep a b)]

theorem maxByLast_map {β γ : Type} (f : β → γ) (l : List (β × Int)) :
    maxByLast (l.map (fun p => (f p.1, p.2))) =
      (maxByLast l).map (fun p => (f p.1, p.2)) := by
  cases l with
  | nil => rfl
  | cons a as =>
    simp only [List.map_cons, maxByLast, Option.map_some']
    rw [foldl_maxStep_map]

/-! ### Relating the enumerated fold in fuzzy_best to pairsOf -/

theorem enumFrom_map_getD (score : String → Int) :
    ∀ (hay hay₀ : List String) (n : Nat),
      (∀ k, hay.getD k "" = hay₀.getD (n + k) "") →
      ((hay.map score).enumFrom n).map (fun p => (hay₀.getD p.1 "", p.2)) =
        pairsOf score hay := by
  intro hay
  induction hay with
  | nil => intro hay₀ n _; rfl
  | cons x xs ih =>
    intro hay₀ n h
    have hx : hay₀.getD n "" = x := by
      have := h 0
      simpa using this.symm
    have hrec : ∀ k, xs.getD k "" = hay₀.getD (n + 1 + k) "" := by
      intro k
      have := h (k + 1)
      simp only [List.getD_cons_succ] at this
      rw [this]
      congr 1
      omega
    simp only [List.map_cons, List.enumFrom_cons, pairsOf, hx]
    rw [← pairsOf, ih hay₀ (n + 1) hrec]

theorem enum_map_getD (score : String → Int) (hay : List String) :
    ((hay.map score).enum).map (fun p => (hay.getD p.1 "", p.2)) =
      pairsOf score hay := by
  have h : ∀ k, hay.getD k "" = hay.getD (0 + k) "" := by
    intro k
    simp
  exact enumFrom_map_getD score hay hay 0 h

/-- fuzzy_best, rephrased over the candidate/score pair list: the enum
indices produced by max_by, pushed through the haystack lookup, give exactly
the max_by reduction of pairsOf. -/
theorem fuzzy_best_eq (score : String → Int) (hay : List String) :
    fuzzy_best score hay =
      if (hay.map score).sum = 0 then
        Except.error SkimpleError.NeedleNotFoundError
      else
        match maxByLast (pairsOf score hay) with
        | none => Except.error SkimpleError.NeedleDisappearedError
        | some p => Except.ok p.1 := by
  unfold fuzzy_best
  by_cases hs : (hay.map score).sum = 0
  · simp [hs]
  · simp only [hs, if_false]
    have hpairs : pairsOf score hay =
        ((hay.map score).enum).map (fun p => (hay.getD p.1 "", p.2)) :=
      (enum_map_getD score hay).symm
    rw [hpairs, maxByLast_map (fun n => hay.getD n "")]
    cases maxByLast ((hay.map score).enum) with
    | none => rfl
    | some q => rfl

theorem matches_eq (score : String → Int) :
    ∀ hay : List String,
      (hay.zip (hay.map score)).filter (fun p => p.2 != 0) =
        pairsOf score (hay.filter (fun x => score x != 0)) := by
  intro hay
  induction hay with
  | nil => rfl
  | cons x xs ih =>
    simp only [List.map_cons, List.zip_cons_cons, List.filter_cons]
    by_cases h : score x = 0
    · simp [h, ih]
    · simp [h, ih, pairsOf]

/-- fuzzy_all, rephrased over pairsOf of the filtered haystack. -/
theorem fuzzy_all_eq (score : String → Int) (hay : List String) :
    fuzzy_all score hay =
      if (hay.map score).sum = 0 then
        Except.error SkimpleError.NeedleNotFoundError
      else
        Except.ok
          (((pairsOf score (hay.filter (fun x => score x != 0))).insertionSort
              scoreLE).map Prod.fst) := by
  unfold fuzzy_all
  by_cases hs : (hay.map score).sum = 0
  · simp [hs]
  · simp only [hs, if_false]
    rw [matches_eq]

/-! ### Sums of non-negative integer lists -/

theorem sum_nonneg_int : ∀ l : List Int, (∀ x ∈ l, 0 ≤ x) → 0 ≤ l.sum := by
  intro l
  induction l with
  | nil => intro _; simp
  | cons a t ih =>
    intro h
    simp only [List.sum_cons]
    have ha := h a (List.mem_cons_self a t)
    have ht := ih (fun x hx => h x (List.mem_cons_of_mem a hx))
    omega

theorem sum_eq_zero_iff_int (l : List Int) (h : ∀ x ∈ l, 0 ≤ x) :
    l.sum = 0 ↔ ∀ x ∈ l, x = 0 := by
  induction l with
  | nil => simp
  | cons a t ih =>
    have ha := h a (List.mem_cons_self a t)
    have ht : ∀ x ∈ t, (0:Int) ≤ x := fun x hx => h x (List.mem_cons_of_mem a hx)
    have hts := sum_nonneg_int t ht
    simp only [List.sum_cons, List.mem_cons]
    constructor
    · intro h0
      have ha0 : a = 0 := by omega
      have hts0 : t.sum = 0 := by omega
      intro x hx
      rcases hx with hx | hx
      · rw [hx]; exact ha0
      · exact ((ih ht).mp hts0) x hx
    · intro hall
      have ha0 : a = 0 := hall a (Or.inl rfl)
      have hts0 : t.sum = 0 := (ih ht).mpr (fun x hx => hall x (Or.inr hx))
      omega

theorem sum_eq_zero_of_all_zero : ∀ l : List Int, (∀ x ∈ l, x = 0) → l.sum = 0 := by
  intro l
  induction l with
  | nil => intro _; rfl
  | cons a t ih =>
    intro h
    simp only [List.sum_cons, h a (List.mem_cons_self a t),
      ih (fun x hx => h x (List.mem_cons_of_mem a hx))]
    omega

theorem exists_ne_zero_of_sum_ne_zero {l : List Int} (h : l.sum ≠ 0) :
    ∃ x ∈ l, x ≠ 0 := by
  by_contra hc
  push_neg at hc
  exact h (sum_eq_zero_of_all_zero l hc)

/-! ### Stability of the ascending sort in fuzzy_all -/

theorem filter_orderedInsert_key (s : Int) (a : String × Int) :
    ∀ l : List (String × Int),
      (l.orderedInsert scoreLE a).filter (fun q => decide (q.2 = s)) =
        if a.2 = s then a :: l.filter (fun q => decide (q.2 = s))
        else l.filter (fun q => decide (q.2 = s)) := by
  intro l
  induction l with
  | nil =>
    by_cases h : a.2 = s <;> simp [List.orderedInsert, h]
  | cons b l ih =>
    by_cases hab : scoreLE a b
    · rw [List.orderedInsert_of_le scoreLE l hab]
      by_cases has : a.2 = s <;> simp [has, List.filter_cons]
    · have hui : (b :: l).orderedInsert scoreLE a = b :: l.orderedInsert scoreLE a := by
        simp only [List.orderedInsert, if_neg hab]
      rw [hui, List.filter_cons, ih]
      by_cases has : a.2 = s
      · have hbs : b.2 ≠ s := by
          have hba : b.2 < a.2 := not_le.mp hab
          omega
        simp [has, hbs, List.filter_cons]
      · simp [has, List.filter_cons]

theorem filter_insertionSort_key (s : Int) :
    ∀ l : List (String × Int),
      (l.insertionSort scoreLE).filter (fun q => decide (q.2 = s)) =
        l.filter (fun q => decide (q.2 = s)) := by
  intro l
  induction l with
  | nil => rfl
  | cons a l ih =>
    simp only [List.insertionSort]
    rw [filter_orderedInsert_key, ih, List.filter_cons]
    by_cases h : a.2 = s <;> simp [h]

/-! ### Last elements of filtered and sorted lists -/

theorem getLast?_filter {α : Type} (p : α → Bool) :
    ∀ (l : List α) (x : α), l.getLast? = some x → p x = true →
      (l.filter p).getLast? = some x := by
  intro l
  induction l with
  | nil => intro x h _; simp at h
  | cons a t ih =>
    intro x h hp
    cases t with
    | nil =>
      simp only [List.getLast?_singleton, Option.some.injEq] at h
      subst h
      simp [List.filter_cons, hp]
    | cons b t' =>
      rw [List.getLast?_cons_cons] at h
      have hrec := ih x h hp
      rw [List.filter_cons]
      by_cases hpa : p a
      · simp only [hpa, if_true]
        cases hf : (b :: t').filter p with
        | nil => rw [hf] at hrec; simp at hrec
        | cons c cs =>
          rw [hf] at hrec
          rw [List.getLast?_cons_cons]
          exact hrec
      · simpa only [hpa, if_false] using hrec

theorem getLast?_le_of_pairwise :
    ∀ (l : List (String × Int)) (x : String × Int),
      l.Pairwise scoreLE → l.getLast? = some x → ∀ q ∈ l, q.2 ≤ x.2 := by
  intro l
  induction l with
  | nil => intro x _ h; simp at h
  | cons a t ih =>
    intro x hp h q hq
    cases t with
    | nil =>
      simp only [List.getLast?_singleton, Option.some.injEq] at h
      subst h
      have hqa : q = a := by simpa using hq
      rw [hqa]
    | cons b t' =>
      rw [List.getLast?_cons_cons] at h
      have hx_mem : x ∈ b :: t' := List.mem_of_getLast?_eq_some h
      rcases List.mem_cons.mp hq with h' | h'
      · subst h'
        exact (List.pairwise_cons.mp hp).1 x hx_mem
      · exact ih x (List.pairwise_cons.mp hp).2 h q h'

/-! ### Small facts about pairsOf -/

theorem mem_pairsOf_iff {score : String → Int} {hay : List String}
    {q : String × Int} : q ∈ pairsOf score hay ↔ q.1 ∈ hay ∧ q.2 = score q.1 := by
  unfold pairsOf
  constructor
  · intro h
    obtain ⟨x, hx, hxe⟩ := List.mem_map.mp h
    rw [← hxe]
    exact ⟨hx, rfl⟩
  · intro ⟨h1, h2⟩
    refine List.mem_map.mpr ⟨q.1, h1, ?_⟩
    rw [← h2]

theorem pairsOf_filter (score : String → Int) (hay : List String) :
    pairsOf score (hay.filter (fun x => score x != 0)) =
      (pairsOf score hay).filter (fun q => q.2 != 0) := by
  unfold pairsOf
  rw [List.filter_map]
  rfl

theorem pairsOf_filter_key (score : String → Int) (hay : List String) (s : Int) :
    (pairsOf score hay).filter (fun q => decide (q.2 = s)) =
      pairsOf score (hay.filter (fun x => decide (score x = s))) := by
  unfold pairsOf
  rw [List.filter_map]
  rfl

/-! ### Success and failure shapes of the two operations -/

theorem fuzzy_best_ok_elim {score : String → Int} {hay : List String} {b : String}
    (h : fuzzy_best score hay = Except.ok b) :
    (hay.map score).sum ≠ 0 ∧
      ∃ p, maxByLast (pairsOf score hay) = some p ∧ b = p.1 := by
  rw [fuzzy_best_eq] at h
  by_cases hs : (hay.map score).sum = 0
  · simp [hs] at h
  · refine ⟨hs, ?_⟩
    simp only [hs, if_false] at h
    cases hm : maxByLast (pairsOf score hay) with
    | none => rw [hm] at h; simp at h
    | some p =>
      rw [hm] at h
      simp only [Except.ok.injEq] at h
      exact ⟨p, rfl, h.symm⟩

theorem maxByLast_pairsOf_some {score : String → Int} {hay : List String}
    (h : hay ≠ []) : ∃ p, maxByLast (pairsOf score hay) = some p := by
  cases hm : maxByLast (pairsOf score hay) with
  | none =>
    have : pairsOf score hay = [] := maxByLast_eq_none_iff.mp hm
    have : hay = [] := by
      unfold pairsOf at this
      exact List.map_eq_nil_iff.mp this
    exact absurd this h
  | some p => exact ⟨p, rfl⟩

theorem sum_ne_zero_of_exists {score : String → Int} {hay : List String}
    (hnn : ∀ x ∈ hay, 0 ≤ score x) (hx : ∃ x ∈ hay, score x ≠ 0) :
    (hay.map score).sum ≠ 0 := by
  intro hs
  have hnn' : ∀ r ∈ hay.map score, 0 ≤ r := by
    intro r hr
    obtain ⟨x, hx', rfl⟩ := List.mem_map.mp hr
    exact hnn x hx'
  have hall := (sum_eq_zero_iff_int _ hnn').mp hs
  obtain ⟨x, hmem, hne⟩ := hx
  exact hne (hall (score x) (List.mem_map.mpr ⟨x, hmem, rfl⟩))

theorem exists_score_ne_zero_of_sum_ne {score : String → Int} {hay : List String}
    (h : (hay.map score).sum ≠ 0) : ∃ x ∈ hay, score x ≠ 0 := by
  obtain ⟨r, hr, hne⟩ := exists_ne_zero_of_sum_ne_zero h
  obtain ⟨x, hx, rfl⟩ := List.mem_map.mp hr
  exact ⟨x, hx, hne⟩

theorem fuzzy_all_ok_of_sum_ne {score : String → Int} {hay : List String}
    (h : (hay.map score).sum ≠ 0) :
    fuzzy_all score hay =
      Except.ok
        (((pairsOf score (hay.filter (fun x => score x != 0))).insertionSort
            scoreLE).map Prod.fst) := by
  rw [fuzzy_all_eq]
  simp [h]

theorem fuzzy_all_ok_elim {score : String → Int} {hay : List String}
    {l : List String} (h : fuzzy_all score hay = Except.ok l) :
    (hay.map score).sum ≠ 0 ∧
      l = ((pairsOf score (hay.filter (fun x => score x != 0))).insertionSort
            scoreLE).map Prod.fst := by
  rw [fuzzy_all_eq] at h
  by_cases hs : (hay.map score).sum = 0
  · simp [hs] at h
  · simp only [hs, if_false, Except.ok.injEq] at h
    exact ⟨hs, h.symm⟩

theorem sortedPairs_pairwise (m : List (String × Int)) :
    (m.insertionSort scoreLE).Pairwise scoreLE :=
  List.sorted_insertionSort scoreLE m

theorem sortedPairs_perm (m : List (String × Int)) :
    List.Perm (m.insertionSort scoreLE) m :=
  List.perm_insertionSort scoreLE m

/-- The last element fuzzy_all returns is the candidate fuzzy_best returns:
both single out the last candidate attaining the maximal (positive) score,
fuzzy_best through max_by and fuzzy_all through the stable ascending sort. -/
theorem fuzzy_all_getLast_eq_best {score : String → Int} {hay : List String}
    (hnn : ∀ x ∈ hay, 0 ≤ score x) {b : String} {l : List String}
    (hb : fuzzy_best score hay = Except.ok b)
    (hl : fuzzy_all score hay = Except.ok l) :
    l.getLast? = some b := by
  obtain ⟨hsum, p, hm, hbp⟩ := fuzzy_best_ok_elim hb
  obtain ⟨-, hleq⟩ := fuzzy_all_ok_elim hl
  have hple : ∀ q ∈ pairsOf score hay, q.2 ≤ p.2 := maxByLast_le hm
  have hpmem := maxByLast_mem hm
  have hp1 : p.1 ∈ hay ∧ p.2 = score p.1 := mem_pairsOf_iff.mp hpmem
  have hp2pos : 0 < p.2 := by
    obtain ⟨x, hxmem, hxne⟩ := exists_score_ne_zero_of_sum_ne hsum
    have hxle : score x ≤ p.2 := hple (x, score x) (mem_pairsOf_iff.mpr ⟨hxmem, rfl⟩)
    have := hnn x hxmem
    omega
  have hp2ne : p.2 ≠ 0 := by omega
  obtain ⟨l₁, l₂, hdec, -, hlt⟩ := maxByLast_split hm
  set m := pairsOf score (hay.filter (fun x => score x != 0)) with hm_def
  set sorted := m.insertionSort scoreLE with hsorted_def
  have hmfilter : m.filter (fun q => decide (q.2 = p.2)) =
      (pairsOf score hay).filter (fun q => decide (q.2 = p.2)) := by
    rw [hm_def, pairsOf_filter, List.filter_filter]
    refine List.filter_congr ?_
    intro a _
    by_cases h : a.2 = p.2
    · simp [h, hp2ne]
    · simp [h]
  have hbase : (pairsOf score hay).filter (fun q => decide (q.2 = p.2)) =
      (l₁.filter (fun q => decide (q.2 = p.2))) ++ [p] := by
    rw [hdec, List.filter_append, List.filter_cons]
    have hl₂ : l₂.filter (fun q => decide (q.2 = p.2)) = [] := by
      rw [List.filter_eq_nil_iff]
      intro q hq
      have := hlt q hq
      simp only [decide_eq_true_eq]
      omega
    simp [hl₂]
  have hpm : p ∈ m := by
    rw [hm_def]
    refine mem_pairsOf_iff.mpr ⟨?_, hp1.2⟩
    rw [List.mem_filter]
    refine ⟨hp1.1, ?_⟩
    simp only [bne_iff_ne, ne_eq, decide_not]
    simp only [← hp1.2]
    simp [hp2ne]
  have hps : p ∈ sorted := ((sortedPairs_perm m).mem_iff).mpr hpm
  have hsne : sorted ≠ [] := List.ne_nil_of_mem hps
  cases hx : sorted.getLast? with
  | none => exact absurd (List.getLast?_eq_none_iff.mp hx) hsne
  | some x =>
    have hxm : x ∈ sorted := List.mem_of_getLast?_eq_some hx
    have hxinm : x ∈ m := ((sortedPairs_perm m).mem_iff).mp hxm
    have hxbase : x ∈ pairsOf score hay := by
      rw [hm_def, pairsOf_filter] at hxinm
      exact (List.mem_filter.mp hxinm).1
    have hxle : x.2 ≤ p.2 := hple x hxbase
    have hplex : p.2 ≤ x.2 :=
      getLast?_le_of_pairwise sorted x (sortedPairs_pairwise m) hx p hps
    have hxp2 : x.2 = p.2 := le_antisymm hxle hplex
    have hxlast : (sorted.filter (fun q => decide (q.2 = p.2))).getLast? = some x :=
      getLast?_filter _ sorted x hx (by simp [hxp2])
    have hplast : (sorted.filter (fun q => decide (q.2 = p.2))).getLast? = some p := by
      rw [hsorted_def, filter_insertionSort_key, hmfilter, hbase, List.getLast?_concat]
    have hxp : x = p := by
      rw [hxlast] at hplast
      exact Option.some.inj hplast
    rw [hleq, List.getLast?_map, hx, hxp, hbp]
    rfl

/-- Full characterization of a successful fuzzy_best call: the winner sits at
a position of the haystack whose score no candidate exceeds and every
candidate strictly after it scores strictly less — i.e. it is the LAST
candidate attaining the maximum score. -/
theorem fuzzy_best_ok_char {score : String → Int} {hay : List String}
    {b : String} (h : fuzzy_best score hay = Except.ok b) :
    ∃ hs₁ hs₂, hay = hs₁ ++ b :: hs₂ ∧ (∀ y ∈ hay, score y ≤ score b) ∧
      ∀ y ∈ hs₂, score y < score b := by
  obtain ⟨hsum, p, hm, hbp⟩ := fuzzy_best_ok_elim h
  obtain ⟨l₁, l₂, hdec, -, hlt⟩ := maxByLast_split hm
  have hple := maxByLast_le hm
  have hdec' : hay.map (fun x => (x, score x)) = l₁ ++ p :: l₂ := hdec
  obtain ⟨h₁, h₂', hhay, hm₁, hm₂'⟩ := List.map_eq_append_iff.mp hdec'
  obtain ⟨y, t, hyt, hfy, hmt⟩ := List.map_eq_cons_iff.mp hm₂'
  have hpy : p = (y, score y) := hfy.symm
  have hby : b = y := by rw [hbp, hpy]
  have hscb : score b = p.2 := by rw [hby, hpy]
  refine ⟨h₁, t, ?_, ?_, ?_⟩
  · rw [hhay, hyt, hby]
  · intro z hz
    have hle := hple (z, score z) (mem_pairsOf_iff.mpr ⟨hz, rfl⟩)
    rw [hscb]
    exact hle
  · intro z hz
    have hzl : (z, score z) ∈ l₂ := by
      rw [← hmt]
      exact List.mem_map.mpr ⟨z, hz, rfl⟩
    have := hlt (z, score z) hzl
    rw [hscb]
    exact this

/-! ### The claims -/

/-- C1, counterexample: a scorer giving both candidates the same positive
score is a tie for the maximum, and fuzzy_best on ["a", "b"] returns "b" —
the LAST tied candidate in input order — not the first one "a" the claim
demands, because Rust's Iterator::max_by keeps the last of equal maxima. -/
theorem C1_counterexample :
    fuzzy_best (fun _ => (1 : Int)) ["a", "b"] = Except.ok "b" ∧
      fuzzy_best (fun _ => (1 : Int)) ["a", "b"] ≠ Except.ok "a" := by
  refine ⟨rfl, ?_⟩
  intro h
  have hba : ("b" : String) = "a" :=
    Except.ok.inj ((rfl : fuzzy_best (fun _ => (1 : Int)) ["a", "b"] =
      Except.ok "b").symm.trans h)
  exact absurd hba (by decide)

/-- C1, amended: whenever fuzzy_best succeeds, the returned candidate is the
LAST candidate of the input sequence attaining the maximum score: every
candidate scores at most as much, and every candidate strictly after the
winner scores strictly less (so on a tie the tied candidate appearing last
in the original order wins, not the first). -/
theorem C1_best_returns_last_tied (score : String → Int) (hay : List String)
    (b : String) (h : fuzzy_best score hay = Except.ok b) :
    ∃ hs₁ hs₂, hay = hs₁ ++ b :: hs₂ ∧ (∀ y ∈ hay, score y ≤ score b) ∧
      ∀ y ∈ hs₂, score y < score b :=
  fuzzy_best_ok_char h

/-- Witness for C1: the amended theorem applied to the tie on ["a", "b"]. -/
theorem C1_best_returns_last_tied_witness :
    ∃ hs₁ hs₂, (["a", "b"] : List String) = hs₁ ++ "b" :: hs₂ ∧
      (∀ y ∈ (["a", "b"] : List String), (1 : Int) ≤ 1) ∧
      ∀ y ∈ hs₂, (1 : Int) < 1 :=
  C1_best_returns_last_tied (fun _ => (1 : Int)) ["a", "b"] "b" rfl

/-- C2: with a non-negative scorer, both operations fail with
NeedleNotFoundError exactly when every candidate scores zero (in particular
on an empty candidate sequence). -/
theorem C2_notfound_iff_all_zero (score : String → Int) (hay : List String)
    (hnn : ∀ x ∈ hay, 0 ≤ score x) :
    (fuzzy_best score hay = Except.error SkimpleError.NeedleNotFoundError ↔
      ∀ x ∈ hay, score x = 0) ∧
    (fuzzy_all score hay = Except.error SkimpleError.NeedleNotFoundError ↔
      ∀ x ∈ hay, score x = 0) := by
  have hnn' : ∀ r ∈ hay.map score, (0 : Int) ≤ r := by
    intro r hr
    obtain ⟨x, hx, rfl⟩ := List.mem_map.mp hr
    exact hnn x hx
  have hiff : (hay.map score).sum = 0 ↔ ∀ x ∈ hay, score x = 0 := by
    rw [sum_eq_zero_iff_int _ hnn']
    constructor
    · intro h x hx
      exact h (score x) (List.mem_map.mpr ⟨x, hx, rfl⟩)
    · intro h r hr
      obtain ⟨x, hx, rfl⟩ := List.mem_map.mp hr
      exact h x hx
  constructor
  · rw [fuzzy_best_eq]
    by_cases hs : (hay.map score).sum = 0
    · rw [if_pos hs]
      exact iff_of_true rfl (hiff.mp hs)
    · rw [if_neg hs]
      refine iff_of_false ?_ (fun h => hs (hiff.mpr h))
      cases hm : maxByLast (pairsOf score hay) with
      | none => simp
      | some p => simp
  · rw [fuzzy_all_eq]
    by_cases hs : (hay.map score).sum = 0
    · rw [if_pos hs]
      exact iff_of_true rfl (hiff.mp hs)
    · rw [if_neg hs]
      exact iff_of_false (by simp) (fun h => hs (hiff.mpr h))

/-- Witness for C2: the zero scorer on ["a"] makes both operations fail. -/
theorem C2_notfound_iff_all_zero_witness :
    (fuzzy_best (fun _ => (0 : Int)) ["a"] =
        Except.error SkimpleError.NeedleNotFoundError ↔
      ∀ x ∈ (["a"] : List String), (0 : Int) = 0) ∧
    (fuzzy_all (fun _ => (0 : Int)) ["a"] =
        Except.error SkimpleError.NeedleNotFoundError ↔
      ∀ x ∈ (["a"] : List String), (0 : Int) = 0) :=
  C2_notfound_iff_all_zero (fun _ => (0 : Int)) ["a"] (fun _ _ => le_refl 0)

/-- C3: with a non-negative scorer, a non-empty haystack and at least one
non-zero score, fuzzy_best succeeds and its candidate's score dominates
every candidate's score. -/
theorem C3_best_is_max (score : String → Int) (hay : List String)
    (hnn : ∀ x ∈ hay, 0 ≤ score x) (hne : hay ≠ [])
    (hex : ∃ x ∈ hay, score x ≠ 0) :
    ∃ b, fuzzy_best score hay = Except.ok b ∧ ∀ y ∈ hay, score y ≤ score b := by
  have hsum := sum_ne_zero_of_exists hnn hex
  obtain ⟨p, hm⟩ := @maxByLast_pairsOf_some score hay hne
  have hb : fuzzy_best score hay = Except.ok p.1 := by
    rw [fuzzy_best_eq, if_neg hsum, hm]
  refine ⟨p.1, hb, ?_⟩
  obtain ⟨hs₁, hs₂, -, hle, -⟩ := fuzzy_best_ok_char hb
  exact hle

/-- Witness for C3 on a two-element haystack with constant score 2. -/
theorem C3_best_is_max_witness :
    ∃ b, fuzzy_best (fun _ => (2 : Int)) ["x", "y"] = Except.ok b ∧
      ∀ y ∈ (["x", "y"] : List String), (2 : Int) ≤ 2 :=
  C3_best_is_max (fun _ => (2 : Int)) ["x", "y"]
    (fun x _ => by show (0 : Int) ≤ 2; decide)
    (by decide) ⟨"x", by decide, by decide⟩

theorem map_fst_pairsOf (score : String → Int) :
    ∀ l : List String, (pairsOf score l).map Prod.fst = l := by
  intro l
  induction l with
  | nil => rfl
  | cons x xs ih =>
    unfold pairsOf at *
    simp only [List.map_cons, ih]

/-- C4: with a non-negative scorer and at least one non-zero score,
fuzzy_all succeeds with a permutation of exactly the candidates whose score
is non-zero, arranged in ascending score order (lowest first, highest
last). -/
theorem C4_all_filtered_ascending (score : String → Int) (hay : List String)
    (hnn : ∀ x ∈ hay, 0 ≤ score x) (hex : ∃ x ∈ hay, score x ≠ 0) :
    ∃ l, fuzzy_all score hay = Except.ok l ∧
      List.Perm l (hay.filter (fun x => score x != 0)) ∧
      l.Pairwise (fun a b => score a ≤ score b) := by
  have hsum := sum_ne_zero_of_exists hnn hex
  have hall := @fuzzy_all_ok_of_sum_ne score hay hsum
  set m := pairsOf score (hay.filter (fun x => score x != 0)) with hm_def
  refine ⟨(m.insertionSort scoreLE).map Prod.fst, hall, ?_, ?_⟩
  · have h1 : List.Perm ((m.insertionSort scoreLE).map Prod.fst)
        (m.map Prod.fst) := (sortedPairs_perm m).map Prod.fst
    have h2 : m.map Prod.fst = hay.filter (fun x => score x != 0) := by
      rw [hm_def, map_fst_pairsOf]
    rw [h2] at h1
    exact h1
  · have hp : (m.insertionSort scoreLE).Pairwise scoreLE := sortedPairs_pairwise m
    have hmem : ∀ q ∈ m.insertionSort scoreLE, q.2 = score q.1 := by
      intro q hq
      have hqm : q ∈ m := (sortedPairs_perm m).mem_iff.mp hq
      rw [hm_def] at hqm
      exact (mem_pairsOf_iff.mp hqm).2
    rw [List.pairwise_map]
    refine hp.imp_of_mem ?_
    intro a b ha hb hr
    have h1 := hmem a ha
    have h2 := hmem b hb
    show score a.1 ≤ score b.1
    rw [← h1, ← h2]
    exact hr

/-- Witness for C4 on candidates scored by length. -/
theorem C4_all_filtered_ascending_witness :
    ∃ l, fuzzy_all (fun s => (s.length : Int)) ["a", "bb", "c"] = Except.ok l ∧
      List.Perm l ((["a", "bb", "c"] : List String).filter
        (fun x => (x.length : Int) != 0)) ∧
      l.Pairwise (fun a b => (a.length : Int) ≤ (b.length : Int)) :=
  C4_all_filtered_ascending (fun s => (s.length : Int)) ["a", "bb", "c"]
    (fun x _ => Int.ofNat_nonneg x.length) ⟨"a", by decide, by decide⟩

/-- C5: whenever both operations succeed on the same inputs (non-negative
scorer), the last element of the fuzzy_all result is the fuzzy_best
candidate. -/
theorem C5_last_of_all_eq_best (score : String → Int) (hay : List String)
    (hnn : ∀ x ∈ hay, 0 ≤ score x) (b : String) (l : List String)
    (hb : fuzzy_best score hay = Except.ok b)
    (hl : fuzzy_all score hay = Except.ok l) :
    l.getLast? = some b :=
  fuzzy_all_getLast_eq_best hnn hb hl

/-- Witness for C5: on the tie ["a", "b"] fuzzy_all returns ["a", "b"] and
fuzzy_best returns "b", the last element. -/
theorem C5_last_of_all_eq_best_witness :
    (["a", "b"] : List String).getLast? = some "b" :=
  C5_last_of_all_eq_best (fun _ => (1 : Int)) ["a", "b"]
    (fun x _ => by show (0 : Int) ≤ 1; decide) "b" ["a", "b"] rfl rfl

/-- C6: the sort in fuzzy_all is stable: for every non-zero score value s,
the result lists the candidates scoring s in exactly their original relative
order (the two filters agree as lists). -/
theorem C6_equal_scores_stable (score : String → Int) (hay : List String)
    (l : List String) (hl : fuzzy_all score hay = Except.ok l)
    (s : Int) (hs : s ≠ 0) :
    l.filter (fun x => decide (score x = s)) =
      hay.filter (fun x => decide (score x = s)) := by
  obtain ⟨hsum, hleq⟩ := fuzzy_all_ok_elim hl
  set m := pairsOf score (hay.filter (fun x => score x != 0)) with hm_def
  have hmem : ∀ q ∈ m.insertionSort scoreLE, q.2 = score q.1 := by
    intro q hq
    have hqm : q ∈ m := (sortedPairs_perm m).mem_iff.mp hq
    rw [hm_def] at hqm
    exact (mem_pairsOf_iff.mp hqm).2
  rw [hleq, List.filter_map]
  have hcongr : (m.insertionSort scoreLE).filter
      ((fun x => decide (score x = s)) ∘ Prod.fst) =
      (m.insertionSort scoreLE).filter (fun q => decide (q.2 = s)) := by
    refine List.filter_congr ?_
    intro q hq
    simp only [Function.comp_apply]
    rw [hmem q hq]
  rw [hcongr, filter_insertionSort_key, hm_def, pairsOf_filter,
    List.filter_filter]
  have hdrop : (pairsOf score hay).filter
      (fun a => decide (a.2 = s) && (a.2 != 0)) =
      (pairsOf score hay).filter (fun a => decide (a.2 = s)) := by
    refine List.filter_congr ?_
    intro a _
    by_cases h : a.2 = s
    · simp [h, hs]
    · simp [h]
  rw [hdrop, pairsOf_filter_key, map_fst_pairsOf]

/-- Witness for C6: candidates scored by length; the two length-one
candidates "a" and "c" keep their original relative order in the result
["a", "c", "bb"]. -/
theorem C6_equal_scores_stable_witness :
    (["a", "c", "bb"] : List String).filter
        (fun x => decide ((x.length : Int) = 1)) =
      (["a", "bb", "c"] : List String).filter
        (fun x => decide ((x.length : Int) = 1)) :=
  C6_equal_scores_stable (fun s => (s.length : Int)) ["a", "bb", "c"]
    ["a", "c", "bb"] rfl 1 (by decide)

/-- C7: the defensive NeedleDisappearedError is unreachable: every error
fuzzy_best returns is NeedleNotFoundError, because a non-zero score sum
forces a non-empty enumeration, on which max_by always resolves. -/
theorem C7_disappeared_unreachable (score : String → Int) (hay : List String)
    (e : SkimpleError) (h : fuzzy_best score hay = Except.error e) :
    e = SkimpleError.NeedleNotFoundError := by
  rw [fuzzy_best_eq] at h
  by_cases hs : (hay.map score).sum = 0
  · rw [if_pos hs] at h
    exact (Except.error.inj h).symm
  · rw [if_neg hs] at h
    cases hm : maxByLast (pairsOf score hay) with
    | none =>
      exfalso
      have hp : pairsOf score hay = [] := maxByLast_eq_none_iff.mp hm
      have hhay : hay = [] := by
        unfold pairsOf at hp
        exact List.map_eq_nil_iff.mp hp
      subst hhay
      simp at hs
    | some p =>
      rw [hm] at h
      exact absurd h (by simp)

/-- Witness for C7: the empty haystack errs, and the error is NotFound. -/
theorem C7_disappeared_unreachable_witness :
    SkimpleError.NeedleNotFoundError = SkimpleError.NeedleNotFoundError :=
  C7_disappeared_unreachable (fun _ => (0 : Int)) []
    SkimpleError.NeedleNotFoundError rfl

/-- C8: both operations are deterministic pure functions of the candidate
sequence and the scorer: two runs with the same haystack and scorers that
agree on every input produce identical results, Ok or Err. -/
theorem C8_deterministic (score₁ score₂ : String → Int) (hay : List String)
    (h : ∀ x, score₁ x = score₂ x) :
    fuzzy_best score₁ hay = fuzzy_best score₂ hay ∧
      fuzzy_all score₁ hay = fuzzy_all score₂ hay := by
  have hs : score₁ = score₂ := funext h
  rw [hs]
  exact ⟨rfl, rfl⟩

/-- Witness for C8: two runs of the constant scorer on ["q"] agree. -/
theorem C8_deterministic_witness :
    fuzzy_best (fun _ => (1 : Int)) ["q"] = fuzzy_best (fun _ => (1 : Int)) ["q"] ∧
      fuzzy_all (fun _ => (1 : Int)) ["q"] = fuzzy_all (fun _ => (1 : Int)) ["q"] :=
  C8_deterministic (fun _ => (1 : Int)) (fun _ => (1 : Int)) ["q"] (fun _ => rfl)

/-- C9: a successful fuzzy_all call never returns an empty list: the
non-zero score sum guarantees some candidate survives the non-zero-score
filter. (The proof needs no sign assumption on the scorer.) -/
theorem C9_ok_nonempty (score : String → Int) (hay : List String)
    (l : List String) (h : fuzzy_all score hay = Except.ok l) : l ≠ [] := by
  obtain ⟨hsum, hleq⟩ := fuzzy_all_ok_elim h
  obtain ⟨x, hx, hxne⟩ := exists_score_ne_zero_of_sum_ne hsum
  have hxf : x ∈ hay.filter (fun x => score x != 0) :=
    List.mem_filter.mpr ⟨hx, by simp [hxne]⟩
  have hpm : (x, score x) ∈ pairsOf score (hay.filter (fun x => score x != 0)) :=
    mem_pairsOf_iff.mpr ⟨hxf, rfl⟩
  have hsm : (x, score x) ∈
      (pairsOf score (hay.filter (fun x => score x != 0))).insertionSort scoreLE :=
    (sortedPairs_perm _).mem_iff.mpr hpm
  have hxl : x ∈ l := by
    rw [hleq]
    exact List.mem_map.mpr ⟨_, hsm, rfl⟩
  exact List.ne_nil_of_mem hxl

/-- Witness for C9: fuzzy_all on ["a"] with score 1 returns the non-empty
["a"]. -/
theorem C9_ok_nonempty_witness : (["a"] : List String) ≠ [] :=
  C9_ok_nonempty (fun _ => (1 : Int)) ["a"] ["a"] rfl

/-- C10: successful results only contain input candidates: fuzzy_best's
winner is an element of the haystack, every element of fuzzy_all's result is
an element of the haystack, and the result is never longer than the
haystack. -/
theorem C10_results_from_input (score : String → Int) (hay : List String)
    (b : String) (l : List String) :
    (fuzzy_best score hay = Except.ok b → b ∈ hay) ∧
      (fuzzy_all score hay = Except.ok l →
        (∀ x ∈ l, x ∈ hay) ∧ l.length ≤ hay.length) := by
  constructor
  · intro h
    obtain ⟨-, p, hm, hbp⟩ := fuzzy_best_ok_elim h
    have hpm := mem_pairsOf_iff.mp (maxByLast_mem hm)
    rw [hbp]
    exact hpm.1
  · intro h
    obtain ⟨hsum, hleq⟩ := fuzzy_all_ok_elim h
    constructor
    · intro x hx
      rw [hleq] at hx
      obtain ⟨q, hq, rfl⟩ := List.mem_map.mp hx
      have hqm : q ∈ pairsOf score (hay.filter (fun x => score x != 0)) :=
        (sortedPairs_perm _).mem_iff.mp hq
      have hqf := (mem_pairsOf_iff.mp hqm).1
      exact (List.mem_filter.mp hqf).1
    · rw [hleq, List.length_map, (sortedPairs_perm _).length_eq]
      unfold pairsOf
      rw [List.length_map]
      exact List.length_filter_le _ _

/-- Witness for C10: on the tie ["u", "v"] fuzzy_best returns "v" ∈ input
and fuzzy_all returns ["u", "v"], drawn from and no longer than the input. -/
theorem C10_results_from_input_witness :
    "v" ∈ (["u", "v"] : List String) ∧
      ((∀ x ∈ (["u", "v"] : List String), x ∈ (["u", "v"] : List String)) ∧
        (["u", "v"] : List String).length ≤ (["u", "v"] : List String).length) :=
  ⟨(C10_results_from_input (fun _ => (1 : Int)) ["u", "v"] "v" ["u", "v"]).1 rfl,
   (C10_results_from_input (fun _ => (1 : Int)) ["u", "v"] "v" ["u", "v"]).2 rfl⟩

end Skimple
